import Mathlib

/-!
# Verification of the locale store and language normalizer

A shallow embedding, in Lean 4, of the locale-management component in
`src/index.tsx`: the pure normalizer `normalizeLng`, the `LocaleProvider`
store built around it (initial-language resolution, `setLanguage` with its
engine call and its persistence / document side effects), and the `useLocale`
consumer hook.

Strings are modelled as lists of characters (`Str := List Char`), and the
JavaScript `toLowerCase` / `toUpperCase` operations as ASCII case folding
applied character by character, which is exact on the ASCII range that
language tags use.  JavaScript truthiness on strings (`!lng`) is modelled by
an emptiness test, and `undefined` by `Option`.
-/

/-- A JavaScript string, modelled as its list of characters. -/
abbrev Str := List Char

/-- ASCII lowering of one character, modelling `String.prototype.toLowerCase`
on the ASCII range: `A`–`Z` (code points 65–90) map 32 code points up. -/
def lowerChar (c : Char) : Char :=
  if 65 ≤ c.toNat ∧ c.toNat ≤ 90 then Char.ofNat (c.toNat + 32) else c

/-- ASCII raising of one character, modelling `String.prototype.toUpperCase`
on the ASCII range: `a`–`z` (code points 97–122) map 32 code points down. -/
def upperChar (c : Char) : Char :=
  if 97 ≤ c.toNat ∧ c.toNat ≤ 122 then Char.ofNat (c.toNat - 32) else c

/-- `lng.toLowerCase()`. -/
def strLower (s : Str) : Str := s.map lowerChar

/-- `lng.toUpperCase()`. -/
def strUpper (s : Str) : Str := s.map upperChar

/-- The `for (const s of supported) { if (low.startsWith(s)) return s; }`
loop of `normalizeLng`: the first element of `supported` that is a string
prefix of `low`, scanning in iteration order, or `none` when the loop falls
through. -/
def scanStartsWith (low : Str) : List Str → Option Str
  | [] => none
  | s :: rest => if s.isPrefixOf low then some s else scanStartsWith low rest

/-- `normalizeLng(lng, supported, fallback)` from `src/index.tsx` lines
19–32.  `lng : Option Str` models the `string | undefined` parameter; the
JavaScript guard `if (!lng) return fallback` fires on `undefined` and on the
empty string.  `supported.includes(low)` is the exact-match test, then the
prefix loop, then the fallback. -/
def normalizeLng (lng : Option Str) (supported : List Str) (fallback : Str) : Str :=
  match lng with
  | none => fallback
  | some l =>
    if l = [] then fallback
    else
      let low := strLower l
      if low ∈ supported then low
      else
        match scanStartsWith low supported with
        | some s => s
        | none => fallback

/-- JavaScript truthiness filter on an optional string: `undefined` and `""`
are falsy, every other string is truthy (models `a || b` selection). -/
def truthyStr (l : Option Str) : Option Str :=
  match l with
  | none => none
  | some s => if s = [] then none else some s

/-- The argument the provider feeds to `normalizeLng` at construction:
`i18n.language || (typeof window !== 'undefined' ? localStorage.getItem(storageKey) || undefined : undefined)`.
`storage = none` models `typeof window === 'undefined'`; `storage = some v`
models an available `localStorage` whose value at `storageKey` is `v`
(`none` for a `null` read). -/
def initialHint (engineLang : Option Str) (storage : Option (Option Str)) : Option Str :=
  match truthyStr engineLang with
  | some l => some l
  | none =>
    match storage with
    | some stored => truthyStr stored
    | none => none

/-- The spec's description of initial value resolution (§4.2), written from
its words: prefer the translation engine's currently active language if
present; otherwise the persisted value under the persistence key if the
persistence backend is available; otherwise absent.  Per the spec's
resolution algorithm (§4.1 step 1) an absent and an empty tag resolve
identically, so "present" here is a nonempty tag. -/
def specInitialHint (engineLang : Option Str) (storage : Option (Option Str)) : Option Str :=
  match truthyStr engineLang with
  | some _ => engineLang
  | none =>
    match storage with
    | some stored => stored
    | none => none

/-- The provider's configuration: `supportedLanguages` and
`fallbackLanguage`, fixed at construction. -/
structure LocaleConfig where
  supported : List Str
  fallback : Str

/-- The observable state owned by the provider: the React `language` state,
the `localStorage` slot at `storageKey` (outer `Option` = window
availability), and `document.documentElement.lang` (outer `Option` =
document availability). -/
structure StoreState where
  language : Str
  storage : Option (Option Str)
  docLang : Option Str

/-- Errors thrown by the external translation engine's `changeLanguage`. -/
inductive EngineError where
  | failure
deriving DecidableEq

/-- The initial `language` state computed in `LocaleProvider` (lines 42–49):
`normalizeLng` applied to the engine/storage hint. -/
def initialLanguage (cfg : LocaleConfig) (engineLang : Option Str)
    (storage : Option (Option Str)) : Str :=
  normalizeLng (initialHint engineLang storage) cfg.supported cfg.fallback

/-- The provider's state right after construction plus the mount
`useEffect`, which copies `language` into `document.documentElement.lang`
when a document exists. -/
def initStore (cfg : LocaleConfig) (engineLang : Option Str)
    (storage : Option (Option Str)) (hasDoc : Bool) : StoreState :=
  let lang := initialLanguage cfg engineLang storage
  { language := lang
    storage := storage
    docLang := if hasDoc then some lang else none }

/-- `setLanguage` (lines 57–69).  `change` is the engine's `changeLanguage`;
a synchronous throw there is an `Except.error`, raised before any of the
state mutations that follow it in the source, so on error no new state is
produced.  On success the React state, the storage slot (when a window
exists) and the document attribute (when a document exists) all become the
normalized tag. -/
def setLanguage (cfg : LocaleConfig) (change : Str → Except EngineError Unit)
    (st : StoreState) (lng : Str) : Except EngineError StoreState :=
  let norm := normalizeLng (some lng) cfg.supported cfg.fallback
  match change norm with
  | Except.error e => Except.error e
  | Except.ok _ =>
    Except.ok
      { language := norm
        storage := st.storage.map (fun _ => some norm)
        docLang := st.docLang.map (fun _ => norm) }

/-- A sequence of `setLanguage` calls against the store.  A call on which
the engine throws leaves the state exactly as it was (the exception
propagates to that call's caller; the store keeps its previous state). -/
def runStore (cfg : LocaleConfig) (change : Str → Except EngineError Unit)
    (st : StoreState) : List Str → StoreState
  | [] => st
  | r :: rs =>
    match setLanguage cfg change st r with
    | Except.ok st2 => runStore cfg change st2 rs
    | Except.error _ => runStore cfg change st rs

/-- The value published through the context to consumers. -/
structure LocaleContextType where
  language : Str
  setLang : Str → Str
  supportedLanguages : List Str

/-- `useLocale` (lines 80–84): reads the context; throws
`useLocale must be used within LocaleProvider` when no provider is
installed, otherwise returns the context value. -/
def useLocale (ctx : Option LocaleContextType) : Except String LocaleContextType :=
  match ctx with
  | none => Except.error "useLocale must be used within LocaleProvider"
  | some c => Except.ok c

/-! ## Character-level lemmas about ASCII case folding -/

theorem char_toNat_ofNat (n : Nat) (h : Nat.isValidChar n) : (Char.ofNat n).toNat = n := by
  simp [Char.ofNat, h, Char.ofNatAux, Char.toNat]
  rfl

theorem char_ofNat_toNat (c : Char) : Char.ofNat c.toNat = c := by
  have h : c.val.toNat.isValidChar := c.valid
  show Char.ofNat c.val.toNat = c
  unfold Char.ofNat
  rw [dif_pos h]
  apply Char.eq_of_val_eq
  apply UInt32.eq_of_toBitVec_eq
  apply BitVec.eq_of_toNat_eq
  rfl

theorem lowerChar_toNat_of_upper (c : Char) (h : 65 ≤ c.toNat ∧ c.toNat ≤ 90) :
    (lowerChar c).toNat = c.toNat + 32 := by
  unfold lowerChar
  rw [if_pos h]
  exact char_toNat_ofNat _ (Or.inl (by omega))

theorem lowerChar_eq_self (c : Char) (h : ¬ (65 ≤ c.toNat ∧ c.toNat ≤ 90)) :
    lowerChar c = c := by
  unfold lowerChar
  rw [if_neg h]

theorem lowerChar_idem (c : Char) : lowerChar (lowerChar c) = lowerChar c := by
  by_cases h : 65 ≤ c.toNat ∧ c.toNat ≤ 90
  · have ht : (lowerChar c).toNat = c.toNat + 32 := lowerChar_toNat_of_upper c h
    exact lowerChar_eq_self _ (by omega)
  · rw [lowerChar_eq_self c h]
    exact lowerChar_eq_self c h

theorem lowerChar_upperChar (c : Char) (h : lowerChar c = c) :
    lowerChar (upperChar c) = c := by
  by_cases hl : 97 ≤ c.toNat ∧ c.toNat ≤ 122
  · have hv : Nat.isValidChar (c.toNat - 32) := Or.inl (by omega)
    have ht : (upperChar c).toNat = c.toNat - 32 := by
      unfold upperChar
      rw [if_pos hl]
      exact char_toNat_ofNat _ hv
    have hr : 65 ≤ (upperChar c).toNat ∧ (upperChar c).toNat ≤ 90 := by omega
    unfold lowerChar
    rw [if_pos hr, ht]
    have : c.toNat - 32 + 32 = c.toNat := by omega
    rw [this]
    exact char_ofNat_toNat c
  · unfold upperChar
    rw [if_neg hl]
    exact h

theorem lowerChar_fixed_of_lowered (x c : Char) (h : c = lowerChar x) :
    lowerChar c = c := by
  rw [h]
  exact lowerChar_idem x

/-! ## String-level lemmas -/

theorem strLower_idem (s : Str) : strLower (strLower s) = strLower s := by
  unfold strLower
  rw [List.map_map]
  apply List.map_congr_left
  intro c _
  exact lowerChar_idem c

theorem strLower_eq_self (s : Str) (h : ∀ c ∈ s, lowerChar c = c) : strLower s = s := by
  unfold strLower
  induction s with
  | nil => rfl
  | cons a as ih =>
    simp only [List.map_cons]
    rw [h a (List.mem_cons_self a as), ih (fun c hc => h c (List.mem_cons_of_mem a hc))]

theorem mem_strLower_fixed (t : Str) (c : Char) (h : c ∈ strLower t) :
    lowerChar c = c := by
  unfold strLower at h
  obtain ⟨x, _, hx⟩ := List.mem_map.mp h
  exact lowerChar_fixed_of_lowered x c hx.symm

theorem strLower_eq_self_of_pre (s t : Str) (h : s <+: strLower t) :
    strLower s = s := by
  apply strLower_eq_self
  intro c hc
  exact mem_strLower_fixed t c (h.subset hc)

theorem strLower_ne_nil (t : Str) (h : t ≠ []) : strLower t ≠ [] := by
  unfold strLower
  simpa using h

theorem strUpper_ne_nil (t : Str) (h : t ≠ []) : strUpper t ≠ [] := by
  unfold strUpper
  simpa using h

theorem strLower_strUpper (t : Str) (h : strLower t = t) :
    strLower (strUpper t) = t := by
  conv_rhs => rw [← h]
  unfold strLower strUpper
  rw [List.map_map]
  apply List.map_congr_left
  intro c hc
  have hfix : lowerChar c = c := by
    apply mem_strLower_fixed t c
    rw [h]
    exact hc
  show lowerChar (upperChar c) = lowerChar c
  rw [lowerChar_upperChar c hfix, hfix]

theorem isPrefixOf_eq_true_iff (l1 l2 : Str) : l1.isPrefixOf l2 = true ↔ l1 <+: l2 :=
  List.isPrefixOf_iff_prefix

/-! ## Lemmas about the prefix-scan loop -/

theorem scanStartsWith_eq_some (low : Str) (S : List Str) (s : Str)
    (h : scanStartsWith low S = some s) : s ∈ S ∧ s.isPrefixOf low = true := by
  induction S with
  | nil => simp [scanStartsWith] at h
  | cons a as ih =>
    unfold scanStartsWith at h
    by_cases ha : a.isPrefixOf low = true
    · rw [if_pos ha] at h
      obtain rfl : a = s := by injection h
      exact ⟨List.mem_cons_self a as, ha⟩
    · rw [if_neg ha] at h
      obtain ⟨h1, h2⟩ := ih h
      exact ⟨List.mem_cons_of_mem a h1, h2⟩

theorem scanStartsWith_eq_none (low : Str) (S : List Str)
    (h : ∀ s ∈ S, s.isPrefixOf low = false) : scanStartsWith low S = none := by
  induction S with
  | nil => rfl
  | cons a as ih =>
    unfold scanStartsWith
    rw [if_neg (by simp [h a (List.mem_cons_self a as)])]
    exact ih (fun s hs => h s (List.mem_cons_of_mem a hs))

theorem scanStartsWith_first (low : Str) (S1 S2 : List Str) (s : Str)
    (h1 : ∀ x ∈ S1, x.isPrefixOf low = false) (hs : s.isPrefixOf low = true) :
    scanStartsWith low (S1 ++ s :: S2) = some s := by
  induction S1 with
  | nil =>
    unfold scanStartsWith
    rw [List.nil_append]
    simp [hs]
  | cons a as ih =>
    rw [List.cons_append]
    unfold scanStartsWith
    rw [if_neg (by simp [h1 a (List.mem_cons_self a as)])]
    exact ih (fun x hx => h1 x (List.mem_cons_of_mem a hx))

theorem scanStartsWith_isSome (low : Str) (S : List Str)
    (h : ∃ s ∈ S, s.isPrefixOf low = true) :
    ∃ s, scanStartsWith low S = some s := by
  induction S with
  | nil => simp at h
  | cons a as ih =>
    unfold scanStartsWith
    by_cases ha : a.isPrefixOf low = true
    · exact ⟨a, by rw [if_pos ha]⟩
    · rw [if_neg ha]
      apply ih
      obtain ⟨s, hs, hp⟩ := h
      rcases List.mem_cons.mp hs with rfl | hmem
      · exact absurd hp ha
      · exact ⟨s, hmem, hp⟩

/-! ## Branch lemmas for `normalizeLng` -/

theorem normalizeLng_exact (t : Str) (S : List Str) (F : Str)
    (h0 : t ≠ []) (h1 : strLower t ∈ S) :
    normalizeLng (some t) S F = strLower t := by
  simp only [normalizeLng]
  rw [if_neg h0, if_pos h1]

theorem normalizeLng_scan_some (t : Str) (S : List Str) (F : Str) (s : Str)
    (h0 : t ≠ []) (h1 : strLower t ∉ S)
    (h2 : scanStartsWith (strLower t) S = some s) :
    normalizeLng (some t) S F = s := by
  simp only [normalizeLng]
  rw [if_neg h0, if_neg h1, h2]

theorem normalizeLng_fallback (t : Str) (S : List Str) (F : Str)
    (h1 : strLower t ∉ S)
    (h2 : scanStartsWith (strLower t) S = none) :
    normalizeLng (some t) S F = F := by
  simp only [normalizeLng]
  by_cases h0 : t = []
  · rw [if_pos h0]
  · rw [if_neg h0, if_neg h1, h2]

theorem normalizeLng_self_mem (s : Str) (S : List Str) (F : Str)
    (h0 : s ≠ []) (h1 : strLower s = s) (h2 : s ∈ S) :
    normalizeLng (some s) S F = s := by
  rw [normalizeLng_exact s S F h0 (by rw [h1]; exact h2), h1]

theorem normalizeLng_mem_or_fallback (l : Option Str) (S : List Str) (F : Str) :
    normalizeLng l S F = F ∨ normalizeLng l S F ∈ S := by
  match l with
  | none => exact Or.inl rfl
  | some t =>
    by_cases h0 : t = []
    · left
      simp only [normalizeLng]
      rw [if_pos h0]
    · by_cases h1 : strLower t ∈ S
      · right
        rw [normalizeLng_exact t S F h0 h1]
        exact h1
      · match hscan : scanStartsWith (strLower t) S with
        | some s =>
          right
          rw [normalizeLng_scan_some t S F s h0 h1 hscan]
          exact (scanStartsWith_eq_some _ S s hscan).1
        | none =>
          left
          exact normalizeLng_fallback t S F h1 hscan

/-! ## Supporting lemmas for the store -/

theorem normalizeLng_nil (S : List Str) (F : Str) : normalizeLng (some []) S F = F := by
  simp [normalizeLng]

theorem normalizeLng_truthyStr (l : Option Str) (S : List Str) (F : Str) :
    normalizeLng (truthyStr l) S F = normalizeLng l S F := by
  match l with
  | none => rfl
  | some s =>
    by_cases h : s = []
    · subst h
      show normalizeLng none S F = normalizeLng (some []) S F
      rw [normalizeLng_nil]
      rfl
    · simp only [truthyStr]
      rw [if_neg h]

theorem truthyStr_eq_some (l : Option Str) (s : Str) (h : truthyStr l = some s) :
    l = some s := by
  match l with
  | none => simp [truthyStr] at h
  | some u =>
    simp only [truthyStr] at h
    by_cases hu : u = []
    · rw [if_pos hu] at h
      exact absurd h (by simp)
    · rw [if_neg hu] at h
      exact h

theorem setLanguage_ok_language (cfg : LocaleConfig)
    (change : Str → Except EngineError Unit) (st st' : StoreState) (r : Str)
    (h : setLanguage cfg change st r = Except.ok st') :
    st'.language = normalizeLng (some r) cfg.supported cfg.fallback := by
  simp only [setLanguage] at h
  cases hc : change (normalizeLng (some r) cfg.supported cfg.fallback) with
  | error e =>
    rw [hc] at h
    exact absurd h (by simp)
  | ok u =>
    rw [hc] at h
    have := (Except.ok.injEq _ _).mp h
    rw [← this]

theorem runStore_language_normalized (cfg : LocaleConfig)
    (change : Str → Except EngineError Unit) :
    ∀ (reqs : List Str) (st : StoreState),
      (∃ req, st.language = normalizeLng req cfg.supported cfg.fallback) →
      ∃ req, (runStore cfg change st reqs).language =
        normalizeLng req cfg.supported cfg.fallback := by
  intro reqs
  induction reqs with
  | nil =>
    intro st h
    exact h
  | cons r rs ih =>
    intro st h
    unfold runStore
    cases hs : setLanguage cfg change st r with
    | ok st2 =>
      exact ih st2 ⟨some r, setLanguage_ok_language cfg change st st2 r hs⟩
    | error e =>
      exact ih st h

/-! ## Claims -/

/-- Claim C1: for every construction and every sequence of `setLanguage`
calls, the store's `language` is always an output of `normalizeLng` for the
last applied request (each successful `setLanguage` installs exactly the
normalization of its argument, never an unnormalized value), and hence is
always the fallback or a member of the supported list. -/
theorem C1_language_always_normalized (cfg : LocaleConfig)
    (change : Str → Except EngineError Unit) (engineLang : Option Str)
    (storage : Option (Option Str)) (hasDoc : Bool) (reqs : List Str) :
    (∀ st r, Except.map StoreState.language (setLanguage cfg change st r) =
      Except.map (fun _ => normalizeLng (some r) cfg.supported cfg.fallback)
        (change (normalizeLng (some r) cfg.supported cfg.fallback))) ∧
    (∃ req : Option Str,
      (runStore cfg change (initStore cfg engineLang storage hasDoc) reqs).language =
        normalizeLng req cfg.supported cfg.fallback) ∧
    ((runStore cfg change (initStore cfg engineLang storage hasDoc) reqs).language =
        cfg.fallback ∨
      (runStore cfg change (initStore cfg engineLang storage hasDoc) reqs).language ∈
        cfg.supported) := by
  have hrun : ∃ req : Option Str,
      (runStore cfg change (initStore cfg engineLang storage hasDoc) reqs).language =
        normalizeLng req cfg.supported cfg.fallback := by
    apply runStore_language_normalized cfg change reqs
    exact ⟨initialHint engineLang storage, rfl⟩
  refine ⟨?_, hrun, ?_⟩
  · intro st r
    simp only [setLanguage]
    cases hc : change (normalizeLng (some r) cfg.supported cfg.fallback) with
    | error e => simp [Except.map]
    | ok u => simp [Except.map]
  · obtain ⟨req, hreq⟩ := hrun
    rw [hreq]
    exact normalizeLng_mem_or_fallback req cfg.supported cfg.fallback

/-- Claim C2 counterexample: idempotence fails without a precondition on
`S` and `F`.  With supported list `["e"]` and fallback `"EN"`, the request
`"zz"` normalizes to the fallback `"EN"`, but normalizing `"EN"` again
yields `"e"` by the prefix rule, not `"EN"`.  Likewise with an empty entry
in the supported list `["", "en"]` and fallback `"en"`, the request `"x"`
normalizes to `""`, which renormalizes to `"en"`. -/
theorem C2_counterexample :
    (normalizeLng (some (normalizeLng (some ['z','z']) [['e']] ['E','N'])) [['e']]
        ['E','N'] ≠
      normalizeLng (some ['z','z']) [['e']] ['E','N']) ∧
    (normalizeLng (some (normalizeLng (some ['x']) [[],['e','n']] ['e','n']))
        [[],['e','n']] ['e','n'] ≠
      normalizeLng (some ['x']) [[],['e','n']] ['e','n']) := by
  decide

/-- Claim C2, amended: `normalizeLng` is idempotent provided every
supported entry is nonempty and the fallback is itself a fixed point of
normalization (for example a lowercase member of the supported list, or a
tag matching nothing); the counterexample shows both provisos are needed
in general. -/
theorem C2_idempotent (t : Option Str) (S : List Str) (F : Str)
    (hne : ∀ s ∈ S, s ≠ ([] : Str))
    (hF : normalizeLng (some F) S F = F) :
    normalizeLng (some (normalizeLng t S F)) S F = normalizeLng t S F := by
  match t with
  | none => exact hF
  | some u =>
    by_cases h0 : u = []
    · subst h0
      rw [normalizeLng_nil]
      exact hF
    · by_cases h1 : strLower u ∈ S
      · rw [normalizeLng_exact u S F h0 h1]
        exact normalizeLng_self_mem (strLower u) S F (strLower_ne_nil u h0)
          (strLower_idem u) h1
      · match hscan : scanStartsWith (strLower u) S with
        | some s =>
          rw [normalizeLng_scan_some u S F s h0 h1 hscan]
          obtain ⟨hmem, hpre⟩ := scanStartsWith_eq_some (strLower u) S s hscan
          have hsfix : strLower s = s :=
            strLower_eq_self_of_pre s u ((isPrefixOf_eq_true_iff s (strLower u)).mp hpre)
          exact normalizeLng_self_mem s S F (hne s hmem) hsfix hmem
        | none =>
          rw [normalizeLng_fallback u S F h1 hscan]
          exact hF

/-- Witness for the amended claim C2 at `t = "de"`, `S = ["en"]`,
`F = "en"`. -/
theorem C2_witness :
    normalizeLng (some (normalizeLng (some ['d','e']) [['e','n']] ['e','n'])) [['e','n']]
        ['e','n'] =
      normalizeLng (some ['d','e']) [['e','n']] ['e','n'] :=
  C2_idempotent (some ['d','e']) [['e','n']] ['e','n'] (by decide) (by decide)

/-- Claim C3 counterexample: exact matching does presuppose a lowercase,
nonempty supported entry.  `"EN"` is an element of the supported list
`["EN"]`, yet `normalizeLng` sends it to the fallback `"fr"`, not to
itself, because the lowered request `"en"` matches neither exactly nor by
prefix; and the empty tag, even as a supported entry, resolves to the
fallback, not to itself. -/
theorem C3_counterexample :
    ((['E','N'] : Str) ∈ [(['E','N'] : Str)] ∧
      normalizeLng (some ['E','N']) [['E','N']] ['f','r'] ≠ ['E','N']) ∧
    (([] : Str) ∈ [([] : Str)] ∧
      normalizeLng (some []) [([] : Str)] ['f','r'] ≠ ([] : Str)) := by
  decide

/-- Claim C3, amended: for every nonempty lowercase tag `t` in the
supported list, `normalizeLng` returns `t` both on `t` itself and on its
uppercased form (requested-tag matching is case-insensitive); the
counterexample shows the lowercase precondition on `t` is required. -/
theorem C3_exact_match (t : Str) (S : List Str) (F : Str)
    (hmem : t ∈ S) (hlow : strLower t = t) (hne : t ≠ []) :
    normalizeLng (some t) S F = t ∧ normalizeLng (some (strUpper t)) S F = t := by
  constructor
  · exact normalizeLng_self_mem t S F hne hlow hmem
  · have h0 : strUpper t ≠ [] := strUpper_ne_nil t hne
    have h1 : strLower (strUpper t) = t := strLower_strUpper t hlow
    rw [normalizeLng_exact (strUpper t) S F h0 (by rw [h1]; exact hmem), h1]

/-- Witness for the amended claim C3 at `t = "es"`,
`S = ["en","es"]`, `F = "en"`. -/
theorem C3_witness :
    normalizeLng (some ['e','s']) [['e','n'],['e','s']] ['e','n'] = ['e','s'] ∧
    normalizeLng (some (strUpper ['e','s'])) [['e','n'],['e','s']] ['e','n'] = ['e','s'] :=
  C3_exact_match ['e','s'] [['e','n'],['e','s']] ['e','n'] (by decide) (by decide)
    (by decide)

/-- Claim C4: when the request has no exact match but some supported entry
is a string prefix of the lowered request, `normalizeLng` returns the first
such entry in iteration order; the test is a raw string prefix with no
separator-boundary requirement, so supported `"es"` matches requested
`"esperanto"`. -/
theorem C4_first_prefix_match (t : Str) (S1 S2 : List Str) (s F : Str)
    (hex : strLower t ∉ S1 ++ s :: S2)
    (hfirst : ∀ x ∈ S1, x.isPrefixOf (strLower t) = false)
    (hs : s.isPrefixOf (strLower t) = true) :
    normalizeLng (some t) (S1 ++ s :: S2) F = s ∧
    normalizeLng (some ['e','s','p','e','r','a','n','t','o']) [['e','n'],['e','s']]
      ['e','n'] = ['e','s'] := by
  constructor
  · have h0 : t ≠ [] := by
      intro h
      subst h
      have hnil : s = [] := by
        have := (isPrefixOf_eq_true_iff s (strLower [])).mp hs
        simpa [strLower] using this
      apply hex
      subst hnil
      have hsl : strLower ([] : Str) = [] := rfl
      rw [hsl]
      exact List.mem_append_right S1 (List.mem_cons_self [] S2)
    exact normalizeLng_scan_some t (S1 ++ s :: S2) F s h0 hex
      (scanStartsWith_first (strLower t) S1 S2 s hfirst hs)
  · decide

/-- Witness for claim C4 at `t = "en-US"`, `S = ["en","es"]` split as
`[] ++ "en" :: ["es"]`, `F = "fr"`. -/
theorem C4_witness :
    normalizeLng (some ['e','n','-','U','S']) ([] ++ ['e','n'] :: [['e','s']]) ['f','r'] =
      ['e','n'] ∧
    normalizeLng (some ['e','s','p','e','r','a','n','t','o']) [['e','n'],['e','s']]
      ['e','n'] = ['e','s'] :=
  C4_first_prefix_match ['e','n','-','U','S'] [] [['e','s']] ['e','n'] ['f','r']
    (by decide) (by decide) (by decide)

/-- Claim C5: when the lowered request matches no supported entry exactly
and no supported entry is a prefix of it, `normalizeLng` returns the
fallback exactly as configured; the function is total and applies no case
folding to the fallback or the supported entries. -/
theorem C5_fallback_on_no_match (t : Str) (S : List Str) (F : Str)
    (h1 : strLower t ∉ S)
    (h2 : ∀ s ∈ S, s.isPrefixOf (strLower t) = false) :
    normalizeLng (some t) S F = F :=
  normalizeLng_fallback t S F h1 (scanStartsWith_eq_none (strLower t) S h2)

/-- Witness for claim C5 at `t = "de"`, `S = ["en"]`, `F = "EN"` (the
fallback comes back verbatim, uppercase preserved). -/
theorem C5_witness :
    normalizeLng (some ['d','e']) [['e','n']] ['E','N'] = ['E','N'] :=
  C5_fallback_on_no_match ['d','e'] [['e','n']] ['E','N'] (by decide) (by decide)

/-- Claim C6: the spec's concrete scenario with `S = ["en","es","fr"]` and
`F = "en"`: `"en-US"` resolves to `"en"`, `"ES"` to `"es"`, `"de"` to
`"en"`, and an absent or empty request to `"en"`. -/
theorem C6_scenario :
    normalizeLng (some ['e','n','-','U','S']) [['e','n'],['e','s'],['f','r']] ['e','n'] =
      ['e','n'] ∧
    normalizeLng (some ['E','S']) [['e','n'],['e','s'],['f','r']] ['e','n'] = ['e','s'] ∧
    normalizeLng (some ['d','e']) [['e','n'],['e','s'],['f','r']] ['e','n'] = ['e','n'] ∧
    normalizeLng none [['e','n'],['e','s'],['f','r']] ['e','n'] = ['e','n'] ∧
    normalizeLng (some []) [['e','n'],['e','s'],['f','r']] ['e','n'] = ['e','n'] := by
  decide

/-- Claim C7: the initial `language` is the normalization of the engine's
active language when present, otherwise of the persisted value when the
persistence backend is available, otherwise of an absent hint; in
particular, with neither source it is the fallback, and with no engine
language and persisted `"es"` (supported) it is `"es"`. -/
theorem C7_initial_resolution (cfg : LocaleConfig) (engineLang : Option Str)
    (storage : Option (Option Str)) :
    initialLanguage cfg engineLang storage =
      normalizeLng (specInitialHint engineLang storage) cfg.supported cfg.fallback ∧
    initialLanguage cfg none none = cfg.fallback ∧
    initialLanguage cfg none (some none) = cfg.fallback ∧
    initialLanguage ⟨[['e','n'],['e','s'],['f','r']], ['e','n']⟩ none
      (some (some ['e','s'])) = ['e','s'] := by
  refine ⟨?_, rfl, rfl, by decide⟩
  unfold initialLanguage initialHint specInitialHint
  cases he : truthyStr engineLang with
  | some l =>
    have heq : engineLang = some l := truthyStr_eq_some engineLang l he
    subst heq
    rfl
  | none =>
    cases storage with
    | none => rfl
    | some st => exact normalizeLng_truthyStr st cfg.supported cfg.fallback

/-- Claim C8: when the engine's change operation throws on the normalized
tag, `setLanguage` propagates that failure to its caller uncaught, and a
store that makes such a call keeps its previous `language`, persisted value
and document attribute unchanged — the engine call precedes every state
mutation. -/
theorem C8_engine_failure_atomic (cfg : LocaleConfig)
    (change : Str → Except EngineError Unit) (st : StoreState) (lng : Str)
    (e : EngineError)
    (h : change (normalizeLng (some lng) cfg.supported cfg.fallback) = Except.error e) :
    setLanguage cfg change st lng = Except.error e ∧
    runStore cfg change st [lng] = st := by
  have hset : setLanguage cfg change st lng = Except.error e := by
    simp only [setLanguage]
    rw [h]
  refine ⟨hset, ?_⟩
  unfold runStore
  rw [hset]
  rfl

/-- Witness for claim C8: a concrete engine that always throws. -/
theorem C8_witness :
    setLanguage ⟨[['e','n']], ['e','n']⟩ (fun _ => Except.error EngineError.failure)
        ⟨['e','n'], some none, some ['e','n']⟩ ['f','r'] =
      Except.error EngineError.failure ∧
    runStore ⟨[['e','n']], ['e','n']⟩ (fun _ => Except.error EngineError.failure)
        ⟨['e','n'], some none, some ['e','n']⟩ [['f','r']] =
      ⟨['e','n'], some none, some ['e','n']⟩ :=
  C8_engine_failure_atomic ⟨[['e','n']], ['e','n']⟩
    (fun _ => Except.error EngineError.failure)
    ⟨['e','n'], some none, some ['e','n']⟩ ['f','r'] EngineError.failure rfl

/-- Claim C9: `useLocale` with no installed provider throws the usage error
synchronously rather than returning a degraded value; under an installed
provider it returns the context value and never throws. -/
theorem C9_useLocale_contract :
    useLocale none = Except.error "useLocale must be used within LocaleProvider" ∧
    ∀ c : LocaleContextType, useLocale (some c) = Except.ok c :=
  ⟨rfl, fun _ => rfl⟩

/-- Claim C10: whenever `normalizeLng` resolves through the exact-match or
prefix-match branch (the request is nonempty and one of the two match
conditions holds), the returned string equals its own lowercase form, so a
supported entry that is not lowercase-fixed can never be the value returned
by either match branch. -/
theorem C10_match_result_lowercase (t : Str) (S : List Str) (F : Str)
    (h0 : t ≠ [])
    (hmatch : strLower t ∈ S ∨ ∃ s ∈ S, s.isPrefixOf (strLower t) = true) :
    strLower (normalizeLng (some t) S F) = normalizeLng (some t) S F ∧
    ∀ u ∈ S, strLower u ≠ u → normalizeLng (some t) S F ≠ u := by
  have hfix : strLower (normalizeLng (some t) S F) = normalizeLng (some t) S F := by
    by_cases h1 : strLower t ∈ S
    · rw [normalizeLng_exact t S F h0 h1]
      exact strLower_idem t
    · have hex : ∃ s ∈ S, s.isPrefixOf (strLower t) = true := hmatch.resolve_left h1
      obtain ⟨s, hscan⟩ := scanStartsWith_isSome (strLower t) S hex
      rw [normalizeLng_scan_some t S F s h0 h1 hscan]
      obtain ⟨_, hpre⟩ := scanStartsWith_eq_some (strLower t) S s hscan
      exact strLower_eq_self_of_pre s t ((isPrefixOf_eq_true_iff s (strLower t)).mp hpre)
  refine ⟨hfix, ?_⟩
  intro u _ hu hequ
  rw [hequ] at hfix
  exact hu hfix

/-- Witness for claim C10 at `t = "EN"`, `S = ["en","ES"]`, `F = "fr"`:
the request matches `"en"` exactly, and the uppercase entry `"ES"` can
never be returned by a match branch. -/
theorem C10_witness :
    strLower (normalizeLng (some ['E','N']) [['e','n'],['E','S']] ['f','r']) =
      normalizeLng (some ['E','N']) [['e','n'],['E','S']] ['f','r'] ∧
    ∀ u ∈ [(['e','n'] : Str), ['E','S']], strLower u ≠ u →
      normalizeLng (some ['E','N']) [['e','n'],['E','S']] ['f','r'] ≠ u :=
  C10_match_result_lowercase ['E','N'] [['e','n'],['E','S']] ['f','r'] (by decide)
    (Or.inl (by decide))
